import Mathlib

/-!
Shallow embedding of the linear-GP-with-Q-learning engine
(`src/core/algorithm.rs`, `src/core/instructions.rs`,
`src/core/engines/fitness_engine.rs`, `src/extensions/q_learning.rs`).

Machine floats (`f64`) are embedded as rationals; indices (`usize`) as `ℕ`;
`isize` as `ℤ`; panicking operations return `Option` (`none` models an abort).
Random draws are passed in explicitly, so every theorem quantifies over all
possible draws. Modules of the repository that are referenced but absent from
`src` (`registers.rs`, `population.rs`, `float_ops.rs`,
`reinforcement_learning.rs`) are modelled from the spec, as marked on each
such definition.
-/

namespace LinearGP

/-- `FitnessScore` from `fitness_engine.rs`: `Valid(f64) | OutOfBounds | NotEvaluated`. -/
inductive FitnessScore where
  | Valid (score : ℚ)
  | OutOfBounds
  | NotEvaluated
deriving DecidableEq, Repr

/-- `FitnessScore::is_not_evaluated` from `fitness_engine.rs`. -/
def FitnessScore.is_not_evaluated : FitnessScore → Bool
  | .NotEvaluated => true
  | _ => false

/-- `FitnessScore::is_invalid` from `fitness_engine.rs`: everything that is
neither `Valid` nor `NotEvaluated` (i.e. `OutOfBounds`) is invalid. -/
def FitnessScore.is_invalid : FitnessScore → Bool
  | .Valid _ => false
  | .NotEvaluated => false
  | _ => true

/-- The `..=Less/Equal` half of `FitnessScore::partial_cmp` from
`fitness_engine.rs`: `Valid` compares by value and dominates the other two
tags, which compare equal to each other. -/
def FitnessScore.fsLe : FitnessScore → FitnessScore → Bool
  | .Valid a, .Valid b => a ≤ b
  | .Valid _, _ => false
  | _, .Valid _ => true
  | _, _ => true

/-- Modelled from the spec: `utils/float_ops.rs` is absent from `src`.
`argmax` yields the index of the maximum element of a sequence (`none` on an
empty sequence); ties resolve to the first maximal index. -/
def argmax (l : List ℚ) : Option ℕ :=
  match l with
  | [] => none
  | x :: xs => some (go xs 1 0 x)
where
  go : List ℚ → ℕ → ℕ → ℚ → ℕ
  | [], _, besti, _ => besti
  | y :: ys, i, besti, bestv =>
      if bestv < y then go ys (i + 1) i y else go ys (i + 1) besti bestv

/-- Maximum value of a non-empty list (`none` on empty); used to state the
canonical TD target the spec prescribes. -/
def rowMax (l : List ℚ) : Option ℚ :=
  match l with
  | [] => none
  | x :: xs => some (xs.foldl (fun a b => if a < b then b else a) x)

/-- Modelled from the spec: `core/registers.rs` is absent from `src`.
`Registers::all_argmax` returns the set of tied maximizer indices of the
register vector, and no winner (`none`) when there is none to pick. -/
def all_argmax (l : List ℚ) : Option (List ℕ) :=
  match l with
  | [] => none
  | x :: _ =>
      match rowMax l with
      | none => none
      | some m => some ((List.range l.length).filter (fun i => l.getD i x = m))

/-- `QConsts` from `q_learning.rs`: learning constants `{alpha, gamma, epsilon}`. -/
structure QConsts where
  alpha : ℚ
  gamma : ℚ
  epsilon : ℚ
deriving DecidableEq, Repr

/-- `ActionRegisterPair` from `q_learning.rs`. -/
structure ActionRegisterPair where
  action : ℕ
  register : ℕ
deriving DecidableEq, Repr

/-- `QTable` from `q_learning.rs`: a `n_registers × n_actions` matrix of
Q-values plus the learning constants. -/
structure QTable where
  table : List (List ℚ)
  n_actions : ℕ
  n_registers : ℕ
  q_consts : QConsts
deriving DecidableEq, Repr

/-- `QTable::new` from `q_learning.rs`: a zero table of the given shape. -/
def QTable.new (n_actions n_registers : ℕ) (q_consts : QConsts) : QTable :=
  ⟨List.replicate n_registers (List.replicate n_actions 0), n_actions, n_registers, q_consts⟩

/-- `DuplicateNew for QTable` from `q_learning.rs`: freshly zeroed table of the
same shape with the same constants. -/
def QTable.duplicate_new (q : QTable) : QTable :=
  QTable.new q.n_actions q.n_registers q.q_consts

/-- `QTable::action_argmax` from `q_learning.rs`. The two `expect`s (missing
row, empty row) are modelled as `none`. -/
def QTable.action_argmax (q : QTable) (register_number : ℕ) : Option ℕ :=
  (q.table.get? register_number).bind argmax

/-- `QTable::update` from `q_learning.rs`, lines 113-127, translated verbatim:
the bootstrap term `next_q_value` is `self.action_argmax(next_action_state.register)
as f64` — the argmax *index* cast to a float. Out-of-range indexing panics
(`none`). -/
def QTable.update (q : QTable) (current_action_state : ActionRegisterPair)
    (current_reward : ℚ) (next_action_state : ActionRegisterPair) : Option QTable :=
  match q.table.get? current_action_state.register with
  | none => none
  | some row =>
    match row.get? current_action_state.action with
    | none => none
    | some current_q_value =>
      match q.action_argmax next_action_state.register with
      | none => none
      | some idx =>
        let next_q_value : ℚ := (idx : ℚ)
        let new_q_value :=
          q.q_consts.alpha *
            (current_reward + q.q_consts.gamma * next_q_value - current_q_value)
        some { q with
                table := q.table.set current_action_state.register
                  (row.set current_action_state.action (current_q_value + new_q_value)) }

/-- Follows the spec's words (§4.5): the canonical TD rule, whose bootstrap
term is the *maximum Q-value* over all actions in the next pair's row. Kept
separate from `QTable.update` (the source) for comparison. -/
def QTable.update_canonical (q : QTable) (current_action_state : ActionRegisterPair)
    (current_reward : ℚ) (next_action_state : ActionRegisterPair) : Option QTable :=
  match q.table.get? current_action_state.register with
  | none => none
  | some row =>
    match row.get? current_action_state.action with
    | none => none
    | some current_q_value =>
      match (q.table.get? next_action_state.register).bind rowMax with
      | none => none
      | some next_q_value =>
        let new_q_value :=
          q.q_consts.alpha *
            (current_reward + q.q_consts.gamma * next_q_value - current_q_value)
        some { q with
                table := q.table.set current_action_state.register
                  (row.set current_action_state.action (current_q_value + new_q_value)) }

/-- Entry lookup helper: the Q-value at row `i`, column `j`. -/
def QTable.entry (q : QTable) (i j : ℕ) : Option ℚ :=
  (q.table.get? i).bind (fun row => row.get? j)

theorem get?_set_ne {α : Type} (l : List α) (i j : ℕ) (a : α) (h : i ≠ j) :
    (l.set i a).get? j = l.get? j := by
  induction l generalizing i j with
  | nil => simp
  | cons x xs ih =>
      cases i with
      | zero =>
          cases j with
          | zero => exact absurd rfl h
          | succ j => simp [List.set]
      | succ i =>
          cases j with
          | zero => simp [List.set]
          | succ j =>
              simp only [List.set, List.get?]
              exact ih i j (fun hij => h (by omega))

theorem get?_set_self {α : Type} (l : List α) (i : ℕ) (a : α) (row : α)
    (h : l.get? i = some row) : (l.set i a).get? i = some a := by
  induction l generalizing i with
  | nil => simp at h
  | cons x xs ih =>
      cases i with
      | zero => simp [List.set]
      | succ i =>
          simp only [List.set, List.get?] at h ⊢
          exact ih i h

/-- C1 (code bug exhibit): on the table `[[0,0],[5,1]]` with `α = γ = 1`,
updating cell `(register 0, action 0)` with reward `0` and next register `1`
leaves the cell at `0` (the code bootstraps with the argmax *index* `0` of row
`[5,1]`), while the canonical TD rule of the spec sets it to `5` (the maximum
Q-value of row `[5,1]`). -/
theorem c1_update_bootstraps_argmax_index_not_max_value :
    (QTable.update ⟨[[0, 0], [5, 1]], 2, 2, ⟨1, 1, 0⟩⟩ ⟨0, 0⟩ 0 ⟨0, 1⟩).map QTable.table
      = some [[0, 0], [5, 1]]
    ∧ (QTable.update_canonical ⟨[[0, 0], [5, 1]], 2, 2, ⟨1, 1, 0⟩⟩ ⟨0, 0⟩ 0 ⟨0, 1⟩).map QTable.table
      = some [[5, 0], [5, 1]]
    ∧ ([[0, 0], [5, 1]] : List (List ℚ)) ≠ [[5, 0], [5, 1]] := by
  refine ⟨by with_unfolding_all rfl, by with_unfolding_all rfl, by decide⟩

/-- C10: `QTable::update` modifies at most the single entry at row
`current_action_state.register`, column `current_action_state.action`; every
other entry, the row count, every row length, the recorded dimensions and the
learning constants are unchanged. -/
theorem c10_update_frame (q : QTable) (cur : ActionRegisterPair) (r : ℚ)
    (next : ActionRegisterPair) (q₂ : QTable)
    (h : q.update cur r next = some q₂) :
    q₂.n_actions = q.n_actions ∧ q₂.n_registers = q.n_registers ∧
      q₂.q_consts = q.q_consts ∧ q₂.table.length = q.table.length ∧
      (∀ i, (q₂.table.get? i).map List.length = (q.table.get? i).map List.length) ∧
      (∀ i j, ¬(i = cur.register ∧ j = cur.action) → q₂.entry i j = q.entry i j) := by
  unfold QTable.update at h
  split at h
  · exact absurd h (by simp)
  case _ row hrow =>
    split at h
    · exact absurd h (by simp)
    case _ cq hcell =>
      split at h
      · exact absurd h (by simp)
      case _ idx hmax =>
        simp only [Option.some.injEq] at h
        subst h
        refine ⟨rfl, rfl, rfl, by simp, ?_, ?_⟩
        · intro i
          by_cases hi : cur.register = i
          · subst hi
            rw [get?_set_self q.table cur.register _ row hrow, hrow]
            simp
          · rw [get?_set_ne q.table cur.register i _ hi]
        · intro i j hij
          unfold QTable.entry
          by_cases hi : i = cur.register
          · subst hi
            have hj : j ≠ cur.action := fun hj => hij ⟨rfl, hj⟩
            rw [get?_set_self q.table cur.register _ row hrow, hrow]
            simp only [Option.some_bind]
            exact get?_set_ne row cur.action j _ (fun hc => hj hc.symm)
          · rw [get?_set_ne q.table cur.register i _ (fun hc => hi hc.symm)]

/-- C10 witness: a concrete update on a `1 × 2` table; the untouched entry
`(0, 1)` is preserved and the constants survive. -/
theorem c10_update_frame_witness :
    QTable.update ⟨[[0, 3]], 2, 1, ⟨1, 0, 0⟩⟩ ⟨0, 0⟩ 1 ⟨0, 0⟩
        = some ⟨[[1, 3]], 2, 1, ⟨1, 0, 0⟩⟩
    ∧ QTable.entry ⟨[[1, 3]], 2, 1, ⟨1, 0, 0⟩⟩ 0 1 = QTable.entry ⟨[[0, 3]], 2, 1, ⟨1, 0, 0⟩⟩ 0 1 := by
  have h : QTable.update ⟨[[0, 3]], 2, 1, ⟨1, 0, 0⟩⟩ ⟨0, 0⟩ 1 ⟨0, 0⟩
      = some ⟨[[1, 3]], 2, 1, ⟨1, 0, 0⟩⟩ := by with_unfolding_all rfl
  exact ⟨h, (c10_update_frame ⟨[[0, 3]], 2, 1, ⟨1, 0, 0⟩⟩ ⟨0, 0⟩ 1 ⟨0, 0⟩
      ⟨[[1, 3]], 2, 1, ⟨1, 0, 0⟩⟩ h).2.2.2.2.2 0 1 (by decide)⟩

/-- One bundle of random draws consumed by a call to `QTable::eval`: `pick`
selects among the tied winning registers, `prob` is the `U[0,1]` draw of the
epsilon-greedy gate, `rand` the draw of `action_random`. Quantifying over
these covers every possible trajectory of the process-wide generator. -/
structure EvalDraw where
  pick : ℕ
  prob : ℚ
  rand : ℕ

/-- `QTable::eval` from `q_learning.rs` lines 81-111. Inner `none` is the
source's `return None` (no winning register); outer `none` models an abort
(failed `epsilon` assertion, failed `expect`, or `UniformInt::new(0, 0)`). -/
def QTable.eval (q : QTable) (registers : List ℚ) (d : EvalDraw) :
    Option (Option ActionRegisterPair) :=
  match all_argmax registers with
  | none => some none
  | some winning_registers =>
    match winning_registers.get? (d.pick % winning_registers.length) with
    | none => none
    | some winning_register =>
      if q.q_consts.epsilon ≤ 1 ∧ 0 ≤ q.q_consts.epsilon then
        if d.prob < q.q_consts.epsilon then
          if q.n_actions = 0 then none
          else some (some ⟨d.rand % q.n_actions, winning_register⟩)
        else
          match q.action_argmax winning_register with
          | none => none
          | some winning_action => some (some ⟨winning_action, winning_register⟩)
      else none

/-- Modelled from the spec (§6): the capability set the Q-learning adapter
requires. `reinforcement_learning.rs` and `program.rs` are absent from `src`.
`sim action = (new state, reward, terminal)`; `exec` runs the program's
instruction sequence over its registers with the environment's state as the
input vector. `update_state` places the environment at a given initial state,
so each trial starts exactly at its initial state; `init`, `reset` and
`finish` have no further modelled effect. -/
structure QEnv (S : Type) where
  sim : S → ℕ → S × ℚ × Bool
  exec : List ℚ → S → List ℚ

/-- `get_action_state` from `q_learning.rs` lines 160-175: run the program on
the current state, then ask the Q-table for the winning action-register pair.
Returns the registers after execution together with `QTable::eval`'s answer. -/
def get_action_state {S : Type} (E : QEnv S) (s : S) (regs : List ℚ) (q : QTable)
    (d : EvalDraw) : List ℚ × Option (Option ActionRegisterPair) :=
  let regs2 := E.exec regs s
  (regs2, q.eval regs2 d)

/-- Outcome of one iteration of the episode loop of `QProgram::eval_fitness`
(lines 207-238): the episode terminated (`done`), continues (`next`), hit the
no-winning-register case (`oob`), or aborted (`crash`). -/
inductive StepOut (S : Type) where
  | done (score : ℚ)
  | next (s : S) (regs : List ℚ) (q : QTable) (pair : ActionRegisterPair) (score : ℚ)
  | oob (regs : List ℚ)
  | crash

/-- The body of the episode loop of `QProgram::eval_fitness`, lines 207-238:
simulate the chosen action, accumulate the reward, stop on terminal states,
otherwise compute the next action-register pair and apply the Q-update only
when the winning register changed. -/
def stepOnce {S : Type} (E : QEnv S) (d : EvalDraw) (s : S) (regs : List ℚ)
    (q : QTable) (pair : ActionRegisterPair) (score : ℚ) : StepOut S :=
  let state_reward_pair := E.sim s pair.action
  let reward := state_reward_pair.2.1
  let score2 := score + reward
  if state_reward_pair.2.2 then .done score2
  else
    match get_action_state E state_reward_pair.1 regs q d with
    | (_, none) => .crash
    | (regs2, some none) => .oob regs2
    | (regs2, some (some next_pair)) =>
      if pair.register ≠ next_pair.register then
        match q.update pair reward next_pair with
        | none => .crash
        | some q2 => .next state_reward_pair.1 regs2 q2 next_pair score2
      else .next state_reward_pair.1 regs2 q next_pair score2

/-- Outcome of one trial (one initial state) of `QProgram::eval_fitness`. -/
inductive TrialOut where
  | ok (score : ℚ) (q : QTable) (regs : List ℚ)
  | oob (regs : List ℚ)
  | crash

/-- The episode loop `for _step in 0..max_episode_length` of
`QProgram::eval_fitness`; `i` indexes the random-draw stream, one bundle per
`get_action_state` call. -/
def runSteps {S : Type} (E : QEnv S) (ds : ℕ → EvalDraw) :
    ℕ → ℕ → S → List ℚ → QTable → ActionRegisterPair → ℚ → TrialOut
  | 0, _, _, regs, q, _, score => .ok score q regs
  | fuel + 1, i, s, regs, q, pair, score =>
    match stepOnce E (ds i) s regs q pair score with
    | .done score2 => .ok score2 q regs
    | .next s2 regs2 q2 pair2 score2 => runSteps E ds fuel (i + 1) s2 regs2 q2 pair2 score2
    | .oob regs2 => .oob regs2
    | .crash => .crash

/-- One iteration of the `for initial_state in ...` loop of
`QProgram::eval_fitness` (lines 187-254), up to the push: clone the program's
Q-table into a working copy, place the environment at the initial state,
compute the initial action-register pair, then run the episode. -/
def runTrial {S : Type} (E : QEnv S) (max_episode_length : ℕ) (ds : ℕ → EvalDraw)
    (q_table : QTable) (regs : List ℚ) (initial_state : S) : TrialOut :=
  match get_action_state E initial_state regs q_table (ds 0) with
  | (_, none) => .crash
  | (regs1, some none) => .oob regs1
  | (regs1, some (some pair)) =>
      runSteps E ds max_episode_length 1 initial_state regs1 q_table pair 0

/-- Outcome of the whole `for initial_state in ...` loop: the list of
`(score, q_table)` pairs pushed, or the early `OutOfBounds` return, or an
abort. Carries the program's registers as left by the loop. -/
inductive TrialsOut where
  | ok (pairs : List (ℚ × QTable)) (regs : List ℚ)
  | oob (regs : List ℚ)
  | crash

/-- The `for initial_state in ...` loop of `QProgram::eval_fitness`: each
trial starts from a fresh clone of the program's own `q_table`; registers are
reset (all slots zeroed, length kept) after each successful trial; the first
no-winning-register outcome aborts the whole loop. `t` indexes the draw
streams, one stream per trial. -/
def collectTrials {S : Type} (E : QEnv S) (max_episode_length : ℕ)
    (dss : ℕ → ℕ → EvalDraw) (q_table : QTable) :
    List S → List ℚ → ℕ → TrialsOut
  | [], regs, _ => .ok [] regs
  | initial_state :: rest, regs, t =>
    match runTrial E max_episode_length (dss t) q_table regs initial_state with
    | .crash => .crash
    | .oob regs2 => .oob regs2
    | .ok score qT regs2 =>
      match collectTrials E max_episode_length dss q_table rest
          (List.replicate regs2.length 0) (t + 1) with
      | .crash => .crash
      | .oob regs3 => .oob regs3
      | .ok pairs regs3 => .ok ((score, qT) :: pairs) regs3

/-- The source's `score_q_table_pairs.sort_by(|a, b| a.0.partial_cmp(&b.0).unwrap())`:
a stable ascending sort on the score component. -/
def sort_by_score (l : List (ℚ × QTable)) : List (ℚ × QTable) :=
  List.insertionSort (fun a b => a.1 ≤ b.1) l

/-- The fields of a `QProgram` that `eval_fitness` may mutate: the recorded
fitness, the stored Q-table, and the program's registers. -/
structure QProgramState where
  fitness : FitnessScore
  q_table : QTable
  registers : List ℚ
deriving DecidableEq, Repr

/-- `QProgram::eval_fitness` from `q_learning.rs` lines 184-264: run every
initial state, then sort the `(score, q_table)` pairs ascending by score and
take the pair at index `len / 2` (`swap_remove`) as the recorded fitness and
the new stored Q-table. The early `OutOfBounds` return leaves the stored
Q-table untouched; `swap_remove` on an empty pair list aborts (`none`). -/
def QProgramState.eval_fitness {S : Type} (E : QEnv S) (max_episode_length : ℕ)
    (dss : ℕ → ℕ → EvalDraw) (initial_states : List S) (p : QProgramState) :
    Option QProgramState :=
  match collectTrials E max_episode_length dss p.q_table initial_states p.registers 0 with
  | .crash => none
  | .oob regs2 => some ⟨.OutOfBounds, p.q_table, regs2⟩
  | .ok score_q_table_pairs regs2 =>
    let sorted := sort_by_score score_q_table_pairs
    match sorted.get? (sorted.length / 2) with
    | none => none
    | some median => some ⟨.Valid median.1, median.2, regs2⟩

theorem collectTrials_ok_length {S : Type} (E : QEnv S) (maxLen : ℕ)
    (dss : ℕ → ℕ → EvalDraw) (q : QTable) (states : List S) (regs : List ℚ) (t : ℕ)
    (pairs : List (ℚ × QTable)) (regsEnd : List ℚ)
    (h : collectTrials E maxLen dss q states regs t = .ok pairs regsEnd) :
    pairs.length = states.length := by
  induction states generalizing regs t pairs regsEnd with
  | nil =>
      unfold collectTrials at h
      cases h
      rfl
  | cons s rest ih =>
      unfold collectTrials at h
      split at h
      · exact absurd h (by simp)
      · exact absurd h (by simp)
      case _ score qT regs2 =>
        split at h
        · exact absurd h (by simp)
        · exact absurd h (by simp)
        case _ pairs3 regs3 heq =>
          cases h
          simp [ih _ _ _ _ heq]

theorem sort_by_score_length (l : List (ℚ × QTable)) :
    (sort_by_score l).length = l.length :=
  List.length_insertionSort _ l

/-- C8: in one iteration of the episode loop, if the episode continues then
the working Q-table is unchanged when the next winning register equals the
current one, and is exactly the result of `QTable::update` when it differs. -/
theorem c8_update_only_on_register_change {S : Type} (E : QEnv S) (d : EvalDraw)
    (s : S) (regs : List ℚ) (q : QTable) (pair : ActionRegisterPair) (score : ℚ)
    (s2 : S) (regs2 : List ℚ) (q2 : QTable) (next : ActionRegisterPair) (score2 : ℚ)
    (h : stepOnce E d s regs q pair score = .next s2 regs2 q2 next score2) :
    (next.register = pair.register → q2 = q) ∧
      (next.register ≠ pair.register →
        q.update pair (E.sim s pair.action).2.1 next = some q2) := by
  unfold stepOnce at h
  dsimp only at h
  split at h
  · exact absurd h (by simp)
  · split at h
    · exact absurd h (by simp)
    · exact absurd h (by simp)
    case _ regsb next_pair hgas =>
      split at h
      case _ hne =>
        split at h
        · exact absurd h (by simp)
        case _ qb hupd =>
          cases h
          exact ⟨fun hreg => absurd hreg.symm hne, fun _ => hupd⟩
      case _ hne =>
        cases h
        have hreg : next.register = pair.register := by
          rcases not_ne_iff.mp hne with h2
          exact h2.symm
        exact ⟨fun _ => rfl, fun hcon => absurd hreg hcon⟩

/-- C8 witness: a concrete continuing step in which the winning register does
not change and the Q-table is returned untouched. -/
theorem c8_update_only_on_register_change_witness :
    ((⟨0, 0⟩ : ActionRegisterPair).register = (⟨0, 0⟩ : ActionRegisterPair).register →
      (⟨[[0]], 1, 1, ⟨1, 0, 0⟩⟩ : QTable) = ⟨[[0]], 1, 1, ⟨1, 0, 0⟩⟩) ∧
      ((⟨0, 0⟩ : ActionRegisterPair).register ≠ (⟨0, 0⟩ : ActionRegisterPair).register →
        QTable.update ⟨[[0]], 1, 1, ⟨1, 0, 0⟩⟩ ⟨0, 0⟩
          ((QEnv.sim ⟨fun _ _ => ((), 2, false), fun _ _ => [1]⟩ () 0)).2.1 ⟨0, 0⟩
          = some ⟨[[0]], 1, 1, ⟨1, 0, 0⟩⟩) :=
  c8_update_only_on_register_change ⟨fun _ _ => ((), 2, false), fun _ _ => [1]⟩
    ⟨0, 1, 0⟩ () [9] ⟨[[0]], 1, 1, ⟨1, 0, 0⟩⟩ ⟨0, 0⟩ 0 () [1] ⟨[[0]], 1, 1, ⟨1, 0, 0⟩⟩
    ⟨0, 0⟩ 2 (by with_unfolding_all rfl)

/-- C9: when the trial loop hits the no-winning-register case, `eval_fitness`
returns immediately with fitness `OutOfBounds`, the stored `q_table` exactly
as it was before the call, and every `(score, q_table)` pair collected from
earlier initial states discarded. -/
theorem c9_no_winner_leaves_q_table (S : Type) (E : QEnv S) (maxLen : ℕ)
    (dss : ℕ → ℕ → EvalDraw) (initial_states : List S) (p : QProgramState)
    (regsEnd : List ℚ)
    (h : collectTrials E maxLen dss p.q_table initial_states p.registers 0
      = .oob regsEnd) :
    p.eval_fitness E maxLen dss initial_states
      = some ⟨.OutOfBounds, p.q_table, regsEnd⟩ := by
  unfold QProgramState.eval_fitness
  rw [h]

/-- C9 witness: two initial states; the first trial succeeds with score 2, the
second hits an empty register vector (no winner). The resulting state is
`OutOfBounds` with the original stored table, the first trial's score gone. -/
theorem c9_no_winner_leaves_q_table_witness :
    QProgramState.eval_fitness
        (⟨fun _ _ => ((), 2, true), fun regs _ => if regs = [0] then [] else regs⟩ : QEnv Unit)
        1 (fun _ _ => ⟨0, 1, 0⟩) [(), ()] ⟨.NotEvaluated, ⟨[[0]], 1, 1, ⟨1, 1, 0⟩⟩, [1]⟩
      = some ⟨.OutOfBounds, ⟨[[0]], 1, 1, ⟨1, 1, 0⟩⟩, []⟩ :=
  c9_no_winner_leaves_q_table Unit
    ⟨fun _ _ => ((), 2, true), fun regs _ => if regs = [0] then [] else regs⟩
    1 (fun _ _ => ⟨0, 1, 0⟩) [(), ()] ⟨.NotEvaluated, ⟨[[0]], 1, 1, ⟨1, 1, 0⟩⟩, [1]⟩
    [] (by with_unfolding_all rfl)

/-- C5: when every trial succeeds, the collected `(score, q_table)` pairs are
sorted ascending by score (stably) and the pair at index `k / 2` — `k` the
number of initial states — becomes the recorded fitness (`Valid` of its
score) and the new stored Q-table. -/
theorem c5_median_of_trials {S : Type} (E : QEnv S) (maxLen : ℕ)
    (dss : ℕ → ℕ → EvalDraw) (initial_states : List S) (p : QProgramState)
    (pairs : List (ℚ × QTable)) (regsEnd : List ℚ) (median : ℚ × QTable)
    (hok : collectTrials E maxLen dss p.q_table initial_states p.registers 0
      = .ok pairs regsEnd)
    (hmed : (sort_by_score pairs).get? (initial_states.length / 2) = some median) :
    p.eval_fitness E maxLen dss initial_states
        = some ⟨.Valid median.1, median.2, regsEnd⟩ ∧
      List.Sorted (fun a b => a.1 ≤ b.1) (sort_by_score pairs) := by
  constructor
  · unfold QProgramState.eval_fitness
    rw [hok]
    have hlen : pairs.length = initial_states.length :=
      collectTrials_ok_length E maxLen dss p.q_table initial_states p.registers 0
        pairs regsEnd hok
    simp only [sort_by_score_length, hlen, hmed]
  · haveI : IsTotal (ℚ × QTable) (fun a b => a.1 ≤ b.1) := ⟨fun a b => le_total a.1 b.1⟩
    haveI : IsTrans (ℚ × QTable) (fun a b => a.1 ≤ b.1) :=
      ⟨fun _ _ _ hab hbc => le_trans hab hbc⟩
    exact List.sorted_insertionSort _ pairs

/-- C5 witness: a single initial state, terminal after one step with reward 1;
the recorded fitness is `Valid 1` and the stored table is the trial's table. -/
theorem c5_median_of_trials_witness :
    QProgramState.eval_fitness (⟨fun _ _ => ((), 1, true), fun _ _ => [1]⟩ : QEnv Unit)
        1 (fun _ _ => ⟨0, 1, 0⟩) [()] ⟨.NotEvaluated, ⟨[[0]], 1, 1, ⟨1, 1, 0⟩⟩, []⟩
      = some ⟨.Valid 1, ⟨[[0]], 1, 1, ⟨1, 1, 0⟩⟩, [0]⟩ :=
  (c5_median_of_trials (⟨fun _ _ => ((), 1, true), fun _ _ => [1]⟩ : QEnv Unit)
    1 (fun _ _ => ⟨0, 1, 0⟩) [()] ⟨.NotEvaluated, ⟨[[0]], 1, 1, ⟨1, 1, 0⟩⟩, []⟩
    [(1, ⟨[[0]], 1, 1, ⟨1, 1, 0⟩⟩)] [0] (1, ⟨[[0]], 1, 1, ⟨1, 1, 0⟩⟩)
    (by with_unfolding_all rfl) (by with_unfolding_all rfl)).1

/-- `Breed::two_point_crossover for Instructions` from `instructions.rs`
lines 9-69, over an arbitrary instruction type. The four random draws are
explicit: `a_start ~ U[0, |A|)`, `b_start ~ U[0, |B|)`; when a start is not
the last index, the matching end draw is `U(start, len)` (otherwise the chunk
runs to the end, the source's `None`). `A[s..e]` is `(A.take e).drop s`;
`splice(s..e, chunk)` is `A.take s ++ chunk ++ A.drop e`. -/
def two_point_crossover {I : Type} (A B : List I)
    (a_start b_start a_end_draw b_end_draw : ℕ) : List I × List I :=
  let a_end : Option ℕ := if a_start = A.length - 1 then none else some a_end_draw
  let b_end : Option ℕ := if b_start = B.length - 1 then none else some b_end_draw
  let a_chunk : List I :=
    match a_end with
    | none => A.drop a_start
    | some e => (A.take e).drop a_start
  let b_chunk : List I :=
    match b_end with
    | none => B.drop b_start
    | some e => (B.take e).drop b_start
  let child_a : List I :=
    match a_end with
    | none => A.take a_start ++ b_chunk
    | some e => A.take a_start ++ b_chunk ++ A.drop e
  let child_b : List I :=
    match b_end with
    | none => B.take b_start ++ a_chunk
    | some e => B.take b_start ++ a_chunk ++ B.drop e
  (child_a, child_b)

/-- C7: for non-empty parents and every in-range random draw, both crossover
children have at least 1 and at most `|A| + |B|` instructions. -/
theorem c7_crossover_length_bounds {I : Type} (A B : List I)
    (a_start b_start a_end_draw b_end_draw : ℕ)
    (hA : A ≠ []) (hB : B ≠ [])
    (haS : a_start < A.length) (hbS : b_start < B.length)
    (haE : a_start ≠ A.length - 1 → a_start + 1 ≤ a_end_draw ∧ a_end_draw < A.length)
    (hbE : b_start ≠ B.length - 1 → b_start + 1 ≤ b_end_draw ∧ b_end_draw < B.length) :
    (1 ≤ (two_point_crossover A B a_start b_start a_end_draw b_end_draw).1.length ∧
      (two_point_crossover A B a_start b_start a_end_draw b_end_draw).1.length
        ≤ A.length + B.length) ∧
    (1 ≤ (two_point_crossover A B a_start b_start a_end_draw b_end_draw).2.length ∧
      (two_point_crossover A B a_start b_start a_end_draw b_end_draw).2.length
        ≤ A.length + B.length) := by
  have hAlen : 1 ≤ A.length := List.length_pos.mpr hA
  have hBlen : 1 ≤ B.length := List.length_pos.mpr hB
  unfold two_point_crossover
  dsimp only
  by_cases ha : a_start = A.length - 1 <;> by_cases hb : b_start = B.length - 1 <;>
    simp only [ha, hb, if_pos, if_neg, ite_true, ite_false] <;>
    simp only [List.length_append, List.length_take, List.length_drop] <;>
    [skip; (rcases hbE hb with ⟨hb1, hb2⟩); (rcases haE ha with ⟨ha1, ha2⟩);
      (rcases haE ha with ⟨ha1, ha2⟩; rcases hbE hb with ⟨hb1, hb2⟩)] <;>
    constructor <;> constructor <;> omega

/-- C7 witness: parents `[10, 11]` and `[7]`, draws `a_start = 0`,
`a_end = 1`, `b_start = 0` (chunk to the end): children are `[7, 11]` and
`[10]`, with lengths inside `[1, 3]`. -/
theorem c7_crossover_length_bounds_witness :
    (1 ≤ (two_point_crossover [10, 11] [7] 0 0 1 0).1.length ∧
      (two_point_crossover [10, 11] [7] 0 0 1 0).1.length
        ≤ ([10, 11] : List ℕ).length + ([7] : List ℕ).length) ∧
    (1 ≤ (two_point_crossover [10, 11] [7] 0 0 1 0).2.length ∧
      (two_point_crossover [10, 11] [7] 0 0 1 0).2.length
        ≤ ([10, 11] : List ℕ).length + ([7] : List ℕ).length) :=
  c7_crossover_length_bounds [10, 11] [7] 0 0 1 0 (by decide) (by decide)
    (by decide) (by decide) (fun _ => by decide) (fun h => absurd rfl h)

/-- `GeneticAlgorithm::eval_fitness` from `algorithm.rs` lines 144-154,
generic over the organism type: for EVERY individual in the population it
calls the organism's fitness adapter (`evalF`) unconditionally, then asserts
`!individual.get_fitness().is_not_evaluated()`; a failing assertion aborts
(`none`). `fit` is the organism's `get_fitness`. -/
def eval_fitness_phase {O : Type} (evalF : O → O) (fit : O → FitnessScore) :
    List O → Option (List O)
  | [] => some []
  | individual :: rest =>
    let individual2 := evalF individual
    if (fit individual2).is_not_evaluated then none
    else
      match eval_fitness_phase evalF fit rest with
      | none => none
      | some rest2 => some (individual2 :: rest2)

/-- C6 counterexample: an organism whose fitness is already `Valid 1` is NOT
left unchanged by the eval-fitness phase — the driver re-invokes the adapter
on every organism, and here the adapter rewrites the fitness to `Valid 2`. -/
theorem c6_counterexample_valid_organism_reevaluated :
    eval_fitness_phase (fun _ => FitnessScore.Valid 2) id [FitnessScore.Valid 1]
        = some [FitnessScore.Valid 2] ∧
      eval_fitness_phase (fun _ => FitnessScore.Valid 2) id [FitnessScore.Valid 1]
        ≠ some [FitnessScore.Valid 1] := by
  refine ⟨by with_unfolding_all rfl, by with_unfolding_all decide⟩

/-- C6 (amended): `eval_fitness` invokes the adapter on every organism each
generation, whatever its current fitness — the result is the adapter mapped
over the whole population — and when the phase completes no organism's
fitness is `NotEvaluated`. -/
theorem c6_amended_adapter_applied_to_all {O : Type} (evalF : O → O)
    (fit : O → FitnessScore) (pop pop2 : List O)
    (h : eval_fitness_phase evalF fit pop = some pop2) :
    pop2 = pop.map evalF ∧ ∀ o ∈ pop2, (fit o).is_not_evaluated = false := by
  induction pop generalizing pop2 with
  | nil =>
      unfold eval_fitness_phase at h
      cases h
      exact ⟨rfl, by simp⟩
  | cons o rest ih =>
      unfold eval_fitness_phase at h
      dsimp only at h
      split at h
      · exact absurd h (by simp)
      case _ hnev =>
        split at h
        · exact absurd h (by simp)
        case _ rest2 heq =>
          cases h
          rcases ih rest2 heq with ⟨hmap, hall⟩
          refine ⟨by simp [hmap], ?_⟩
          intro x hx
          rcases List.mem_cons.mp hx with hx | hx
          · subst hx
            exact Bool.not_eq_true _ ▸ (by simpa using hnev)
          · exact hall x hx

/-- C6 amended witness: a `NotEvaluated` organism is evaluated to `Valid 2`;
the phase output is the adapter mapped over the population and contains no
`NotEvaluated` fitness. -/
theorem c6_amended_adapter_applied_to_all_witness :
    [FitnessScore.Valid 2] = [FitnessScore.NotEvaluated].map (fun _ => FitnessScore.Valid 2) ∧
      ∀ o ∈ [FitnessScore.Valid 2], (id o).is_not_evaluated = false :=
  c6_amended_adapter_applied_to_all (fun _ => FitnessScore.Valid 2) id
    [FitnessScore.NotEvaluated] [FitnessScore.Valid 2] (by with_unfolding_all rfl)

/-- `HyperParameters` from `algorithm.rs` lines 22-34. The two generic payload
fields (`fitness_parameters`, `program_parameters`) carry no validated data
and are omitted. -/
structure HyperParameters where
  population_size : ℕ
  gap : ℚ
  mutation_percent : ℚ
  crossover_percent : ℚ
  n_generations : ℕ
deriving DecidableEq, Repr

/-- Construction of `HyperParameters` as the source performs it everywhere: a
plain struct literal (`HyperParameters { ... }`). `Option` leaves room for a
fatal construction-time failure; the source checks nothing, so construction
always succeeds. -/
def HyperParameters.construct (population_size : ℕ)
    (gap mutation_percent crossover_percent : ℚ) (n_generations : ℕ) :
    Option HyperParameters :=
  some ⟨population_size, gap, mutation_percent, crossover_percent, n_generations⟩

/-- Modelled from the spec (§4.7, §7): the validated constructor the spec
describes, failing fatally on an invalid configuration. Kept separate from
`HyperParameters.construct` (the source) for comparison. -/
def HyperParameters.construct_validated (population_size : ℕ)
    (gap mutation_percent crossover_percent : ℚ) (n_generations : ℕ) :
    Option HyperParameters :=
  if 2 ≤ population_size ∧ 0 ≤ gap ∧ gap ≤ 1 ∧ 0 ≤ mutation_percent ∧
      0 ≤ crossover_percent ∧ mutation_percent + crossover_percent ≤ 1 then
    some ⟨population_size, gap, mutation_percent, crossover_percent, n_generations⟩
  else none

/-- C3 counterexample: a configuration with empty population, `gap = 2` and
`mutation_percent + crossover_percent = 3/2` is constructed successfully by
the source (no fatal failure), violating every claimed invariant, while the
spec's validated constructor rejects it. -/
theorem c3_counterexample_no_validation :
    HyperParameters.construct 0 2 (3 / 4) (3 / 4) 5
        = some ⟨0, 2, 3 / 4, 3 / 4, 5⟩ ∧
      ¬((2 : ℚ) ≤ 1) ∧ ¬(2 ≤ (0 : ℕ)) ∧ ¬((3 / 4 : ℚ) + 3 / 4 ≤ 1) ∧
      HyperParameters.construct_validated 0 2 (3 / 4) (3 / 4) 5 = none := by
  refine ⟨rfl, by norm_num, by decide, by norm_num, ?_⟩
  unfold HyperParameters.construct_validated
  rw [if_neg]
  intro hcon
  exact absurd hcon.1 (by decide)

/-- C3 (amended): `HyperParameters` construction performs no validation at
all — it succeeds for every combination of field values, so none of the
claimed invariants is enforced at construction time. -/
theorem c3_amended_construction_never_fails (population_size : ℕ)
    (gap mutation_percent crossover_percent : ℚ) (n_generations : ℕ) :
    HyperParameters.construct population_size gap mutation_percent
        crossover_percent n_generations
      = some ⟨population_size, gap, mutation_percent, crossover_percent, n_generations⟩ :=
  rfl

/-- `Valid`-ness of a fitness score, used to state C4's survivor count. -/
def FitnessScore.is_valid : FitnessScore → Bool
  | .Valid _ => true
  | _ => false

/-- The first loop of `GeneticAlgorithm::survive` (`algorithm.rs` lines
195-198): pop every organism whose fitness `is_invalid` from the worst end,
decrementing the drop counter (an `isize`) each time. `population.rs` is
absent from `src`; per the spec (§3, §4.6) the population is sorted ascending
with the worst organism first, so popping from the worst end removes the
head. `fit` is the organism's `get_fitness`. -/
def drop_invalid {O : Type} (fit : O → FitnessScore) : List O → ℤ → List O × ℤ
  | [], d => ([], d)
  | o :: rest, d =>
      if (fit o).is_invalid then drop_invalid fit rest (d - 1) else (o :: rest, d)

/-- `GeneticAlgorithm::survive` from `algorithm.rs` lines 185-207: compute
`n_of_individuals_to_drop = len - floor((1 - gap) * len)` as an `isize`,
first pop every invalid organism from the worst end (decrementing the
counter), then pop while the counter is still positive (`List.drop` of its
`toNat`). -/
def survive {O : Type} (fit : O → FitnessScore) (gap : ℚ) (population : List O) :
    List O :=
  let pop_len := population.length
  let n_to_drop : ℤ := (pop_len : ℤ) - ⌊(1 - gap) * (pop_len : ℚ)⌋
  let res := drop_invalid fit population n_to_drop
  res.1.drop res.2.toNat

theorem drop_invalid_eq {O : Type} (fit : O → FitnessScore) (pop : List O) (d : ℤ) :
    drop_invalid fit pop d =
      (pop.dropWhile (fun o => (fit o).is_invalid),
        d - (pop.takeWhile (fun o => (fit o).is_invalid)).length) := by
  induction pop generalizing d with
  | nil => simp [drop_invalid]
  | cons o rest ih =>
      by_cases hp : (fit o).is_invalid
      · simp only [drop_invalid, hp, if_true, List.dropWhile_cons, List.takeWhile_cons,
          ih (d - 1), List.length_cons]
        congr 1
        push_cast
        ring
      · simp [drop_invalid, hp, List.dropWhile_cons, List.takeWhile_cons]

theorem valid_suffix {O : Type} (fit : O → FitnessScore) (pop : List O)
    (hsort : List.Sorted (fun a b => (fit a).fsLe (fit b) = true) pop)
    (hne : ∀ o ∈ pop, fit o ≠ .NotEvaluated) :
    ∀ o ∈ pop.dropWhile (fun o => (fit o).is_invalid), (fit o).is_valid = true := by
  induction pop with
  | nil => simp
  | cons o rest ih =>
      by_cases hp : (fit o).is_invalid
      · simp only [List.dropWhile_cons, hp, if_true]
        exact ih hsort.tail (fun x hx => hne x (List.mem_cons_of_mem o hx))
      · simp only [List.dropWhile_cons, hp, Bool.false_eq_true, if_false]
        have hov : (fit o).is_valid = true := by
          cases hfo : fit o with
          | Valid a => rfl
          | OutOfBounds => rw [hfo] at hp; exact absurd rfl hp
          | NotEvaluated => exact absurd hfo (hne o (List.mem_cons_self o rest))
        intro x hx
        rcases List.mem_cons.mp hx with hx | hx
        · subst hx; exact hov
        · have hrel : (fit o).fsLe (fit x) = true :=
            (List.pairwise_cons.mp hsort).1 x hx
          cases hfo : fit o with
          | Valid a =>
              rw [hfo] at hrel
              cases hfx : fit x with
              | Valid b => rfl
              | OutOfBounds => rw [hfx] at hrel; exact absurd hrel (by simp [FitnessScore.fsLe])
              | NotEvaluated => rw [hfx] at hrel; exact absurd hrel (by simp [FitnessScore.fsLe])
          | OutOfBounds => rw [hfo] at hov; exact absurd hov (by simp [FitnessScore.is_valid])
          | NotEvaluated => exact absurd hfo (hne o (List.mem_cons_self o rest))

theorem filter_valid_eq_dropWhile {O : Type} (fit : O → FitnessScore) (pop : List O)
    (hsort : List.Sorted (fun a b => (fit a).fsLe (fit b) = true) pop)
    (hne : ∀ o ∈ pop, fit o ≠ .NotEvaluated) :
    pop.filter (fun o => (fit o).is_valid) =
      pop.dropWhile (fun o => (fit o).is_invalid) := by
  conv_lhs => rw [← List.takeWhile_append_dropWhile
    (p := fun o => (fit o).is_invalid) (l := pop)]
  rw [List.filter_append]
  have h1 : (pop.takeWhile (fun o => (fit o).is_invalid)).filter
      (fun o => (fit o).is_valid) = [] := by
    rw [List.filter_eq_nil_iff]
    intro a ha
    have hinv : (fit a).is_invalid = true :=
      List.mem_takeWhile_imp (p := fun o => (fit o).is_invalid) ha
    cases hfa : fit a with
    | Valid v => rw [hfa] at hinv; exact absurd hinv (by simp [FitnessScore.is_invalid])
    | OutOfBounds => simp [FitnessScore.is_valid]
    | NotEvaluated => simp [FitnessScore.is_valid]
  have h2 : (pop.dropWhile (fun o => (fit o).is_invalid)).filter
      (fun o => (fit o).is_valid) = pop.dropWhile (fun o => (fit o).is_invalid) :=
    List.filter_eq_self.mpr (fun a ha => valid_suffix fit pop hsort hne a ha)
  rw [h1, h2, List.nil_append]

/-- C4: on a population sorted ascending by fitness with no `NotEvaluated`
organism and `gap ∈ [0, 1]`, `survive` keeps exactly the best-ranked final
segment, of length `min(floor((1 - gap) * len), #Valid)`. -/
theorem c4_survive_keeps_best {O : Type} (fit : O → FitnessScore) (gap : ℚ)
    (pop : List O)
    (hsort : List.Sorted (fun a b => (fit a).fsLe (fit b) = true) pop)
    (hne : ∀ o ∈ pop, fit o ≠ .NotEvaluated)
    (hg0 : 0 ≤ gap) (hg1 : gap ≤ 1) :
    survive fit gap pop =
        pop.drop (pop.length -
          min (⌊(1 - gap) * (pop.length : ℚ)⌋.toNat)
            ((pop.filter (fun o => (fit o).is_valid)).length)) ∧
      (survive fit gap pop).length =
        min (⌊(1 - gap) * (pop.length : ℚ)⌋.toNat)
          ((pop.filter (fun o => (fit o).is_valid)).length) := by
  have hm0 : 0 ≤ ⌊(1 - gap) * (pop.length : ℚ)⌋ :=
    Int.floor_nonneg.mpr (mul_nonneg (by linarith) (by positivity))
  have hmlen : ⌊(1 - gap) * (pop.length : ℚ)⌋ ≤ (pop.length : ℤ) := by
    have hle : (1 - gap) * (pop.length : ℚ) ≤ (pop.length : ℚ) :=
      mul_le_of_le_one_left (by positivity) (by linarith)
    calc ⌊(1 - gap) * (pop.length : ℚ)⌋ ≤ ⌊((pop.length : ℕ) : ℚ)⌋ :=
          Int.floor_le_floor hle
      _ = (pop.length : ℤ) := Int.floor_natCast pop.length
  set m : ℕ := ⌊(1 - gap) * (pop.length : ℚ)⌋.toNat with hmdef
  have hmz : (m : ℤ) = ⌊(1 - gap) * (pop.length : ℚ)⌋ :=
    Int.toNat_of_nonneg hm0
  set T := pop.takeWhile (fun o => (fit o).is_invalid) with hT
  set D := pop.dropWhile (fun o => (fit o).is_invalid) with hD
  have hsplit : T ++ D = pop := by
    rw [hT, hD]; exact List.takeWhile_append_dropWhile _ pop
  have hlen : T.length + D.length = pop.length := by
    rw [← List.length_append, hsplit]
  have hfil : pop.filter (fun o => (fit o).is_valid) = D :=
    filter_valid_eq_dropWhile fit pop hsort hne
  have hsurv : survive fit gap pop =
      D.drop (((pop.length : ℤ) - m - T.length).toNat) := by
    unfold survive
    dsimp only
    rw [drop_invalid_eq]
    dsimp only
    rw [← hT, ← hD, ← hmz]
  refine ⟨?_, ?_⟩
  · rw [hsurv, hfil]
    have hidx : pop.length - min m D.length =
        T.length + ((pop.length : ℤ) - m - T.length).toNat := by omega
    rw [hidx, ← hsplit]
    exact (@List.drop_append _ T D _).symm
  · rw [hsurv, hfil, List.length_drop]
    omega

/-- C4 witness: the spec's own scenario — fitnesses
`[OutOfBounds, Valid 1, Valid 3, Valid 5]` (ascending), `gap = 1/4`: exactly
one organism is dropped and it is the `OutOfBounds` one. -/
theorem c4_survive_keeps_best_witness :
    survive id (1 / 4)
        [FitnessScore.OutOfBounds, .Valid 1, .Valid 3, .Valid 5] =
        ([FitnessScore.OutOfBounds, .Valid 1, .Valid 3, .Valid 5].drop
          (([FitnessScore.OutOfBounds, .Valid 1, .Valid 3, .Valid 5] : List FitnessScore).length -
            min (⌊(1 - 1 / 4 : ℚ) *
                (([FitnessScore.OutOfBounds, .Valid 1, .Valid 3, .Valid 5] : List FitnessScore).length : ℚ)⌋.toNat)
              (([FitnessScore.OutOfBounds, .Valid 1, .Valid 3, .Valid 5].filter
                (fun o => (id o).is_valid)).length))) ∧
      (survive id (1 / 4)
          [FitnessScore.OutOfBounds, .Valid 1, .Valid 3, .Valid 5]).length =
        min (⌊(1 - 1 / 4 : ℚ) *
            (([FitnessScore.OutOfBounds, .Valid 1, .Valid 3, .Valid 5] : List FitnessScore).length : ℚ)⌋.toNat)
          (([FitnessScore.OutOfBounds, .Valid 1, .Valid 3, .Valid 5].filter
            (fun o => (id o).is_valid)).length) :=
  c4_survive_keeps_best id (1 / 4)
    [FitnessScore.OutOfBounds, .Valid 1, .Valid 3, .Valid 5]
    (by simp [List.Sorted, List.pairwise_cons, FitnessScore.fsLe]; norm_num)
    (by decide) (by norm_num) (by norm_num)

/-- The random draws consumed by one iteration of the crossover/mutation loop
of `GeneticAlgorithm::variation`: the two parent choices (`choose` on the
population iterator, modelled as an arbitrary index taken mod the length),
which of the two crossover children is kept, and which parent is mutated. -/
structure VarDraws where
  parent_a : ℕ → ℕ
  parent_b : ℕ → ℕ
  child_pick : ℕ → Bool
  mutation_parent : ℕ → Bool

/-- The `while (n_crossovers + n_mutations) > 0` loop of
`GeneticAlgorithm::variation` (`algorithm.rs` lines 233-272), generic over
the organism type: each iteration chooses two parents (aborting — the
source's `panic` — when the population is empty), pushes one crossover child
while `n_crossovers > 0`, then pushes one mutant while `n_mutations > 0`.
`cross a b` is the pair of `two_point_crossover` children; `mut` is the
organism's `mutate`. -/
def variation_loop {O : Type} (population : List O) (cross : O → O → O × O)
    (mutate : O → O) (rng : VarDraws) :
    ℕ → ℕ → ℕ → List O → Option (List O)
  | 0, 0, _, offspring => some offspring
  | ncx + 1, nmut + 1, t, offspring =>
    match population.get? (rng.parent_a t % population.length),
        population.get? (rng.parent_b t % population.length) with
    | some a, some b =>
        variation_loop population cross mutate rng ncx nmut (t + 1)
          (offspring ++ [if rng.child_pick t then (cross a b).1 else (cross a b).2]
            ++ [mutate (if rng.mutation_parent t then a else b)])
    | _, _ => none
  | ncx + 1, 0, t, offspring =>
    match population.get? (rng.parent_a t % population.length),
        population.get? (rng.parent_b t % population.length) with
    | some a, some b =>
        variation_loop population cross mutate rng ncx 0 (t + 1)
          (offspring ++ [if rng.child_pick t then (cross a b).1 else (cross a b).2])
    | _, _ => none
  | 0, nmut + 1, t, offspring =>
    match population.get? (rng.parent_a t % population.length),
        population.get? (rng.parent_b t % population.length) with
    | some a, some b =>
        variation_loop population cross mutate rng 0 nmut (t + 1)
          (offspring ++ [mutate (if rng.mutation_parent t then a else b)])
    | _, _ => none

/-- Floor of a rational cast to `usize` (`.floor() as usize` saturates below
zero, as the float-to-int cast does). -/
def floor_as_usize (x : ℚ) : ℕ := ⌊x⌋.toNat

/-- `GeneticAlgorithm::variation` from `algorithm.rs` lines 209-285:
`remaining_pool_spots = capacity - len`; early return when zero;
`n_mutations = floor(spots * mutation_percent)` and likewise for crossovers
(the source's `debug_assert!(n_mutations + n_crossovers <= remaining_pool_spots)`
is modelled as a guard); run the crossover/mutation loop; then fill with
clones: `choose_multiple(remaining)` samples without replacement, so it
returns `min(remaining, len)` organisms — modelled as a prefix, which has
that exact length. -/
def variation {O : Type} (population : List O) (capacity : ℕ)
    (mutation_percent crossover_percent : ℚ) (cross : O → O → O × O)
    (mutate : O → O) (dup : O → O) (rng : VarDraws) : Option (List O) :=
  let remaining_pool_spots := capacity - population.length
  if remaining_pool_spots = 0 then some population
  else
    let n_mutations := floor_as_usize ((remaining_pool_spots : ℚ) * mutation_percent)
    let n_crossovers := floor_as_usize ((remaining_pool_spots : ℚ) * crossover_percent)
    if n_mutations + n_crossovers ≤ remaining_pool_spots then
      match variation_loop population cross mutate rng n_crossovers n_mutations 0 [] with
      | none => none
      | some offspring =>
        let filled := remaining_pool_spots - (n_crossovers + n_mutations)
        let clones := (population.take filled).map dup
        some (population ++ (offspring ++ clones))
    else none

theorem variation_loop_some_length {O : Type} (population : List O)
    (cross : O → O → O × O) (mutate : O → O) (rng : VarDraws)
    (hpop : population ≠ []) :
    ∀ fuel ncx nmut t offspring, ncx + nmut ≤ fuel →
      ∃ offspring2, variation_loop population cross mutate rng ncx nmut t offspring
          = some offspring2 ∧
        offspring2.length = offspring.length + ncx + nmut := by
  have hget : ∀ k, ∃ a, population.get? (k % population.length) = some a := by
    intro k
    have hlt : k % population.length < population.length :=
      Nat.mod_lt k (List.length_pos.mpr hpop)
    rcases List.get?_eq_get hlt with h
    exact ⟨_, h⟩
  intro fuel
  induction fuel with
  | zero =>
      intro ncx nmut t offspring hle
      have hncx : ncx = 0 := by omega
      have hnmut : nmut = 0 := by omega
      subst hncx; subst hnmut
      exact ⟨offspring, by rw [variation_loop], by omega⟩
  | succ n ih =>
      intro ncx nmut t offspring hle
      rcases hget (rng.parent_a t) with ⟨a, ha⟩
      rcases hget (rng.parent_b t) with ⟨b, hb⟩
      match ncx, nmut with
      | 0, 0 => exact ⟨offspring, by rw [variation_loop], by omega⟩
      | ncx + 1, nmut + 1 =>
          rcases ih ncx nmut (t + 1)
              (offspring ++ [if rng.child_pick t then (cross a b).1 else (cross a b).2]
                ++ [mutate (if rng.mutation_parent t then a else b)]) (by omega) with
            ⟨off2, heq, hlen⟩
          refine ⟨off2, ?_, ?_⟩
          · rw [variation_loop, ha, hb]
            exact heq
          · simp only [hlen, List.length_append, List.length_cons, List.length_nil]
            omega
      | ncx + 1, 0 =>
          rcases ih ncx 0 (t + 1)
              (offspring ++ [if rng.child_pick t then (cross a b).1 else (cross a b).2])
              (by omega) with ⟨off2, heq, hlen⟩
          refine ⟨off2, ?_, ?_⟩
          · rw [variation_loop, ha, hb]
            exact heq
          · simp only [hlen, List.length_append, List.length_cons, List.length_nil]
            omega
      | 0, nmut + 1 =>
          rcases ih 0 nmut (t + 1)
              (offspring ++ [mutate (if rng.mutation_parent t then a else b)])
              (by omega) with ⟨off2, heq, hlen⟩
          refine ⟨off2, ?_, ?_⟩
          · rw [variation_loop, ha, hb]
            exact heq
          · simp only [hlen, List.length_append, List.length_cons, List.length_nil]
            omega

/-- C2 counterexample: a ranked population of 2 with capacity 10 and
`mutation_percent = crossover_percent = 0` comes back from `variation` with
length 4 (2 survivors plus at most 2 clones — sampling without replacement
cannot produce more clones than survivors), not with length 10. -/
theorem c2_counterexample_variation_underfills :
    (variation [(), ()] 10 0 0 (fun a b => (a, b)) id id
        ⟨fun _ => 0, fun _ => 0, fun _ => true, fun _ => true⟩).map List.length
      = some 4 ∧ (4 : ℕ) ≠ 10 := by
  refine ⟨by with_unfolding_all rfl, by decide⟩

/-- C2 (amended): for a non-empty population whose length is at most the
capacity, and counters passing the source's own
`n_mutations + n_crossovers <= remaining_pool_spots` assertion, `variation`
returns a population of length `min capacity (2·len + n_crossovers + n_mutations)`
— it reaches the full capacity exactly when the survivors can supply enough
clones, and falls short otherwise. -/
theorem c2_amended_variation_length {O : Type} (population : List O)
    (capacity : ℕ) (mutation_percent crossover_percent : ℚ)
    (cross : O → O → O × O) (mutate : O → O) (dup : O → O) (rng : VarDraws)
    (hpop : population ≠ []) (hcap : population.length ≤ capacity)
    (hguard : floor_as_usize (((capacity - population.length : ℕ) : ℚ) * mutation_percent)
        + floor_as_usize (((capacity - population.length : ℕ) : ℚ) * crossover_percent)
        ≤ capacity - population.length) :
    (variation population capacity mutation_percent crossover_percent
        cross mutate dup rng).map List.length
      = some (min capacity (population.length + population.length
          + floor_as_usize (((capacity - population.length : ℕ) : ℚ) * crossover_percent)
          + floor_as_usize (((capacity - population.length : ℕ) : ℚ) * mutation_percent))) := by
  unfold variation
  dsimp only
  by_cases hz : capacity - population.length = 0
  · rw [if_pos hz]
    simp only [Option.map_some']
    congr 1
    omega
  · rw [if_neg hz, if_pos hguard]
    rcases variation_loop_some_length population cross mutate rng hpop
        (floor_as_usize (((capacity - population.length : ℕ) : ℚ) * crossover_percent)
          + floor_as_usize (((capacity - population.length : ℕ) : ℚ) * mutation_percent))
        (floor_as_usize (((capacity - population.length : ℕ) : ℚ) * crossover_percent))
        (floor_as_usize (((capacity - population.length : ℕ) : ℚ) * mutation_percent))
        0 [] (by omega) with ⟨off2, heq, hlen⟩
    rw [heq]
    simp only [Option.map_some', Option.some.injEq]
    simp only [List.length_append, List.length_map, List.length_take, hlen,
      List.length_nil]
    omega

/-- C2 amended witness: one survivor, capacity 2, both percents 0 — the
result has length `min 2 2 = 2` (one survivor plus one clone). -/
theorem c2_amended_variation_length_witness :
    (variation [()] 2 0 0 (fun a b => (a, b)) id id
        ⟨fun _ => 0, fun _ => 0, fun _ => true, fun _ => true⟩).map List.length
      = some (min 2 ((([()] : List Unit).length + ([()] : List Unit).length
          + floor_as_usize (((2 - ([()] : List Unit).length : ℕ) : ℚ) * 0)
          + floor_as_usize (((2 - ([()] : List Unit).length : ℕ) : ℚ) * 0)))) :=
  c2_amended_variation_length [()] 2 0 0 (fun a b => (a, b)) id id
    ⟨fun _ => 0, fun _ => 0, fun _ => true, fun _ => true⟩
    (by decide) (by decide) (by with_unfolding_all decide)

end LinearGP
